import Mathlib

/-!
# Verification of the Advanced-ML course notebooks

A shallow embedding, over `ℚ`, of the numerical routines of the two
notebooks (`KernelPerceptron.ipynb` and the scikit-learn coding
session): the bias perceptron, the kernel perceptron, AdaBoost, the
two-layer network's backward pass, and the minibatch utilities.
Machine floats are modelled as exact rationals; `numpy` arrays over a
fixed feature dimension `d` are modelled as functions `Fin d → ℚ` (for
the perceptron and the network) or as `List`s (where the python code
iterates row-wise).  `np.random.shuffle` is modelled by passing the
resulting permutation of `range n` explicitly.

Several method bodies of the notebooks are exercises left to the
student (`KernelPerceptron.fit`, `KernelPerceptron.net_input`, the
round body of `AdaBoost.fit`); those definitions are modelled from the
spec, as flagged in their doc comments.  Everything else is translated
from the notebook code.
-/

namespace Spec2Proof

/-- `np.dot` of two vectors of dimension `d`. -/
def dotQ {d : ℕ} (u v : Fin d → ℚ) : ℚ := ∑ i, u i * v i

/-! ## The bias perceptron (KernelPerceptron.ipynb, class Perceptron)

State: weight vector `w : Fin d → ℚ`, bias `b : ℚ`.  `fit` performs up
to `n_iter` passes over `zip(X, y)`; an example triggers the update when
`target * predict(xi) < 0`; a pass with zero errors returns at once,
*before* appending to `errors_`.  We carry the recorded error list
(`errs`, the notebook's `errors_`) and additionally count the passes
actually performed (`passes`), which the python object exposes only
implicitly (through control flow); the counter does not alter the
computation.
-/

namespace Perceptron

/-- `net_input` for a single example: `np.dot(x, w_) + b_`. -/
def net_input {d : ℕ} (w : Fin d → ℚ) (b : ℚ) (x : Fin d → ℚ) : ℚ :=
  dotQ x w + b

/-- `predict` on a single example: `np.where(net_input >= 0.0, 1, -1)`. -/
def predict1 {d : ℕ} (w : Fin d → ℚ) (b : ℚ) (x : Fin d → ℚ) : ℚ :=
  if 0 ≤ net_input w b x then 1 else -1

/-- `predict` on a stack of examples (row-wise `np.where`). -/
def predict {d : ℕ} (w : Fin d → ℚ) (b : ℚ) (X : List (Fin d → ℚ)) : List ℚ :=
  X.map (predict1 w b)

/-- One step of the inner loop of `fit`: state `(w, b, errors)`,
example `(xi, target)`.  The update fires when
`target * self.predict(xi) < 0` and then performs
`w_ += eta * target * xi; b_ += eta * target; errors += 1`. -/
def step {d : ℕ} (eta : ℚ) (s : (Fin d → ℚ) × ℚ × ℕ) (ex : (Fin d → ℚ) × ℚ) :
    (Fin d → ℚ) × ℚ × ℕ :=
  if ex.2 * predict1 s.1 s.2.1 ex.1 < 0 then
    (s.1 + (eta * ex.2) • ex.1, s.2.1 + eta * ex.2, s.2.2 + 1)
  else s

/-- One full pass of `fit` over `zip(X, y)`, starting with `errors = 0`. -/
def runPass {d : ℕ} (eta : ℚ) (exs : List ((Fin d → ℚ) × ℚ)) (w : Fin d → ℚ)
    (b : ℚ) : (Fin d → ℚ) × ℚ × ℕ :=
  exs.foldl (step eta) (w, b, 0)

/-- Result of `fit`: final `(w_, b_)`, the recorded `errors_` list, and
the number of passes performed. -/
structure FitResult (d : ℕ) where
  w : Fin d → ℚ
  b : ℚ
  errs : List ℕ
  passes : ℕ
  deriving DecidableEq

/-- The outer loop of `fit` (`for _ in range(self.n_iter)`), with the
early `return self` when a pass records zero errors — which happens
*before* `self.errors_.append(errors)`. -/
def fitAux {d : ℕ} (eta : ℚ) (exs : List ((Fin d → ℚ) × ℚ)) :
    ℕ → (Fin d → ℚ) → ℚ → List ℕ → ℕ → FitResult d
  | 0, w, b, errs, ps => ⟨w, b, errs, ps⟩
  | fuel + 1, w, b, errs, ps =>
    let r := runPass eta exs w b
    if r.2.2 = 0 then ⟨r.1, r.2.1, errs, ps + 1⟩
    else fitAux eta exs fuel r.1 r.2.1 (errs ++ [r.2.2]) (ps + 1)

/-- `Perceptron.fit`: start from `w_ = np.zeros(d)`, `b_ = 0.`,
`errors_ = []`, and loop `n_iter` times over `zip(X, y)`. -/
def fit {d : ℕ} (X : List (Fin d → ℚ)) (y : List ℚ) (eta : ℚ) (n_iter : ℕ) :
    FitResult d :=
  fitAux eta (X.zip y) n_iter 0 0 [] 0

/-- Specification-side variant of `step` whose guard is literal
disagreement `predict(xi) ≠ target` instead of the code's
`target * predict(xi) < 0`; used to state that exactly the disagreeing
examples trigger the update. -/
def stepDis {d : ℕ} (eta : ℚ) (s : (Fin d → ℚ) × ℚ × ℕ) (ex : (Fin d → ℚ) × ℚ) :
    (Fin d → ℚ) × ℚ × ℕ :=
  if predict1 s.1 s.2.1 ex.1 ≠ ex.2 then
    (s.1 + (eta * ex.2) • ex.1, s.2.1 + eta * ex.2, s.2.2 + 1)
  else s

/-- Disagreement-guard variant of the outer loop (same structure as
`fitAux`, with `stepDis` in place of `step`). -/
def fitAuxDis {d : ℕ} (eta : ℚ) (exs : List ((Fin d → ℚ) × ℚ)) :
    ℕ → (Fin d → ℚ) → ℚ → List ℕ → ℕ → FitResult d
  | 0, w, b, errs, ps => ⟨w, b, errs, ps⟩
  | fuel + 1, w, b, errs, ps =>
    let r := exs.foldl (stepDis eta) (w, b, 0)
    if r.2.2 = 0 then ⟨r.1, r.2.1, errs, ps + 1⟩
    else fitAuxDis eta exs fuel r.1 r.2.1 (errs ++ [r.2.2]) (ps + 1)

/-- Disagreement-guard variant of `fit`. -/
def fitDis {d : ℕ} (X : List (Fin d → ℚ)) (y : List ℚ) (eta : ℚ) (n_iter : ℕ) :
    FitResult d :=
  fitAuxDis eta (X.zip y) n_iter 0 0 [] 0

/-- Error counts of the successive passes that `fit` actually performs:
one entry per performed pass, the final entry being `0` exactly when
training stops by early convergence. -/
def passTrace {d : ℕ} (eta : ℚ) (exs : List ((Fin d → ℚ) × ℚ)) :
    ℕ → (Fin d → ℚ) → ℚ → List ℕ
  | 0, _, _ => []
  | fuel + 1, w, b =>
    let r := runPass eta exs w b
    if r.2.2 = 0 then [0] else r.2.2 :: passTrace eta exs fuel r.1 r.2.1

end Perceptron

/-! ## The kernel perceptron (KernelPerceptron.ipynb, class KernelPerceptron)

The class skeleton fixes the pass structure of `fit` (`for _ in
range(self.n_iter)`, inner loop `for k in range(0, self.n_)`, the
`errors == 0` early return placed before `self.errors_.append`) and the
unit-step `predict`; the bodies of `fit`'s inner loop and of
`net_input` are exercises.  Those are modelled from the spec (§4.2):
state is a dual coefficient per training index (initially zero) plus a
bias; `net_input(x) = Σ_k alpha_k * y_k * K(x_k, x) + b`; on a mistake
at example `k` the coefficient `alpha_k` accumulates `eta` (the spec's
"increment `alpha_i` by 1 (equivalently accumulate eta)") and the bias
update mirrors the primal `b += eta * y_k`; the mistake guard mirrors
the primal `target * predict < 0`.
-/

/-- The standard kernel of the notebook: `K_standard(u, v) = u.dot(v.T)`. -/
def K_standard {d : ℕ} (u v : Fin d → ℚ) : ℚ := dotQ u v

namespace KernelPerceptron

/-- Modelled from the spec: `net_input` of the kernel perceptron,
`Σ_k alpha_k * y_k * K(x_k, x) + b` (KernelPerceptron.net_input is an
exercise in the notebook). -/
def net_input {d : ℕ} (K : (Fin d → ℚ) → (Fin d → ℚ) → ℚ)
    (X : List (Fin d → ℚ)) (y : List ℚ) (alpha : List ℚ) (b : ℚ)
    (z : Fin d → ℚ) : ℚ :=
  ((alpha.zip (y.zip X)).map (fun p => p.1 * p.2.1 * K p.2.2 z)).sum + b

/-- `predict` on a single example: `np.where(net_input >= 0.0, 1, -1)`
(this line is given in the notebook skeleton). -/
def predict1 {d : ℕ} (K : (Fin d → ℚ) → (Fin d → ℚ) → ℚ)
    (X : List (Fin d → ℚ)) (y : List ℚ) (alpha : List ℚ) (b : ℚ)
    (z : Fin d → ℚ) : ℚ :=
  if 0 ≤ net_input K X y alpha b z then 1 else -1

/-- Modelled from the spec: the body of `fit`'s inner loop at training
index `k` (an exercise in the notebook).  State `(alpha, b, errors)`;
on a mistake at example `k`, `alpha_k` accumulates `eta`, and the bias
update mirrors the primal version. -/
def step {d : ℕ} (K : (Fin d → ℚ) → (Fin d → ℚ) → ℚ)
    (X : List (Fin d → ℚ)) (y : List ℚ) (eta : ℚ)
    (s : List ℚ × ℚ × ℕ) (k : ℕ) : List ℚ × ℚ × ℕ :=
  let x := X.getD k 0
  let t := y.getD k 0
  if t * predict1 K X y s.1 s.2.1 x < 0 then
    (s.1.set k (s.1.getD k 0 + eta), s.2.1 + eta * t, s.2.2 + 1)
  else s

/-- One pass of the kernel `fit`: `for k in range(0, self.n_)` with
`n_ = len(X)` (loop header from the notebook skeleton). -/
def runPass {d : ℕ} (K : (Fin d → ℚ) → (Fin d → ℚ) → ℚ)
    (X : List (Fin d → ℚ)) (y : List ℚ) (eta : ℚ) (alpha : List ℚ) (b : ℚ) :
    List ℚ × ℚ × ℕ :=
  (List.range X.length).foldl (step K X y eta) (alpha, b, 0)

/-- Result of the kernel `fit`: dual coefficients, bias, recorded
`errors_`, and number of passes performed. -/
structure KFitResult where
  alpha : List ℚ
  b : ℚ
  errs : List ℕ
  passes : ℕ
  deriving DecidableEq

/-- Outer loop of the kernel `fit`, with the same early-return and
`errors_.append` placement as the primal `fit` (both appear verbatim in
the notebook skeleton). -/
def fitAux {d : ℕ} (K : (Fin d → ℚ) → (Fin d → ℚ) → ℚ)
    (X : List (Fin d → ℚ)) (y : List ℚ) (eta : ℚ) :
    ℕ → List ℚ → ℚ → List ℕ → ℕ → KFitResult
  | 0, alpha, b, errs, ps => ⟨alpha, b, errs, ps⟩
  | fuel + 1, alpha, b, errs, ps =>
    let r := runPass K X y eta alpha b
    if r.2.2 = 0 then ⟨r.1, r.2.1, errs, ps + 1⟩
    else fitAux K X y eta fuel r.1 r.2.1 (errs ++ [r.2.2]) (ps + 1)

/-- Modelled from the spec: `KernelPerceptron.fit`, dual coefficients
initialized to zero (one per training example), bias zero. -/
def fit {d : ℕ} (K : (Fin d → ℚ) → (Fin d → ℚ) → ℚ)
    (X : List (Fin d → ℚ)) (y : List ℚ) (eta : ℚ) (n_iter : ℕ) : KFitResult :=
  fitAux K X y eta n_iter (List.replicate X.length 0) 0 [] 0

/-- The weight vector implied by the dual coefficients:
`Σ_k alpha_k * y_k * x_k` (the quantity claim C2 compares with the
primal `w_`). -/
def impliedW {d : ℕ} (X : List (Fin d → ℚ)) (y : List ℚ) (alpha : List ℚ) :
    Fin d → ℚ :=
  ((alpha.zip (y.zip X)).map (fun p => (p.1 * p.2.1) • p.2.2)).sum

end KernelPerceptron

/-! ## AdaBoost (scikit-learn session notebook, class AdaBoost)

The notebook gives `__init__` (stores `T` and the weak-learner
factory), the initialization of `fit` (`n = X.shape[0]`,
`self.w = np.zeros(self.T)`, `mu = np.ones(n)/n`, `self.learners = []`)
and the full `predict`/`net_input`; the body of `fit`'s round loop is
an exercise, modelled from the spec (§4.3).  A weak learner is a
function from a feature row to a label; the factory receives
`(X, y, mu)`.  The spec's transcendental functions `ln` and `exp` are
abstracted as parameters `logA` and `expA` (the update's structure does
not depend on them; the invariants below assume of `expA` only the
positivity that the real `exp` enjoys); `self.w` is modelled as the
list `ws` to which each round's learner weight is appended. -/

namespace AdaBoost

/-- State of `fit` between rounds: sample weights `mu`, stored learners,
and stored learner weights. -/
structure AState where
  mu : List ℚ
  learners : List (List ℚ → ℚ)
  ws : List ℚ

/-- Modelled from the spec: the weighted error rate `ε_t` of learner `h`
under the current weights, `Σ_i mu_i * [h(x_i) ≠ y_i]`. -/
def epsOf (X : List (List ℚ)) (y : List ℚ) (mu : List ℚ)
    (h : List ℚ → ℚ) : ℚ :=
  ((mu.zip (X.zip y)).map (fun p => if h p.2.1 = p.2.2 then 0 else p.1)).sum

/-- Modelled from the spec: the multiplicative reweighting
`mu_i *= exp(-w_t * y_i * h_t(x_i))` (with `exp` abstracted as `expA`). -/
def reweight (expA : ℚ → ℚ) (wt : ℚ) (X : List (List ℚ)) (y : List ℚ)
    (mu : List ℚ) (h : List ℚ → ℚ) : List ℚ :=
  (mu.zip (X.zip y)).map (fun p => p.1 * expA (-(wt * p.2.2 * h p.2.1)))

/-- Modelled from the spec: renormalize a weight vector to sum 1. -/
def normalize (l : List ℚ) : List ℚ := l.map (fun m => m / l.sum)

/-- Modelled from the spec: one round of `fit` — request a weak learner,
compute its weighted error, compute the learner weight
`w_t = 0.5 * ln(1/ε_t - 1)` (with `ln` abstracted as `logA`), reweight
and renormalize `mu`, and store the `(h_t, w_t)` pair. -/
def roundStep (logA expA : ℚ → ℚ)
    (wl : List (List ℚ) → List ℚ → List ℚ → (List ℚ → ℚ))
    (X : List (List ℚ)) (y : List ℚ) (s : AState) : AState :=
  let h := wl X y s.mu
  let eps := epsOf X y s.mu h
  let wt := 1 / 2 * logA (1 / eps - 1)
  let mu1 := reweight expA wt X y s.mu h
  ⟨normalize mu1, s.learners ++ [h], s.ws ++ [wt]⟩

/-- The state after `t` rounds of `fit`, starting (per the notebook's
given initialization) from uniform `mu = np.ones(n)/n`, no learners,
and no weights. -/
def stateAt (logA expA : ℚ → ℚ)
    (wl : List (List ℚ) → List ℚ → List ℚ → (List ℚ → ℚ))
    (X : List (List ℚ)) (y : List ℚ) : ℕ → AState
  | 0 => ⟨List.replicate X.length ((1 : ℚ) / X.length), [], []⟩
  | t + 1 => roundStep logA expA wl X y (stateAt logA expA wl X y t)

/-- Modelled from the spec: `AdaBoost.fit` runs the round body `T`
times (`for t in range(0, self.T)`, loop header from the notebook). -/
def fit (logA expA : ℚ → ℚ)
    (wl : List (List ℚ) → List ℚ → List ℚ → (List ℚ → ℚ))
    (X : List (List ℚ)) (y : List ℚ) (T : ℕ) : AState :=
  stateAt logA expA wl X y T

/-- The weighted error `ε_t` of round `t`: the error of the learner
requested in round `t` under the sample weights current at round `t`. -/
def epsAt (logA expA : ℚ → ℚ)
    (wl : List (List ℚ) → List ℚ → List ℚ → (List ℚ → ℚ))
    (X : List (List ℚ)) (y : List ℚ) (t : ℕ) : ℚ :=
  epsOf X y (stateAt logA expA wl X y t).mu
    (wl X y (stateAt logA expA wl X y t).mu)

/-- `AdaBoost.net_input` (given in the notebook): start from
`np.zeros(n)` and add `self.w[t] * self.learners[t].predict(X)` for
each `t in range(0, self.T)`. -/
def net_input (ws : List ℚ) (learners : List (List ℚ → ℚ)) (T : ℕ)
    (X : List (List ℚ)) : List ℚ :=
  X.map (fun row =>
    ((List.range T).map (fun t => ws.getD t 0 * learners.getD t (fun _ => 0) row)).sum)

/-- `AdaBoost.predict` (given in the notebook):
`np.where(net_input >= 0, 1, -1)`. -/
def predict (ws : List ℚ) (learners : List (List ℚ → ℚ)) (T : ℕ)
    (X : List (List ℚ)) : List ℚ :=
  (net_input ws learners T X).map (fun v => if 0 ≤ v then 1 else -1)

end AdaBoost

/-! ## The two-layer network (scikit-learn session notebook, NeuralNetMLP)

`backward` is given in full in the notebook; it receives the input
batch `x`, the hidden and output activations `o_h`, `o_out` of
`forward`, and the integer labels `y`, and reads `self.weight_out` and
`self.num_classes`.  Batches are `Matrix (Fin n) (Fin dim) ℚ` and the
integer class labels are `Fin num_classes` (an out-of-range label would
make the notebook's `ary[i, val] = 1` fail). -/

/-- `int_to_onehot` (given in the notebook): a zero matrix with
`ary[i, y[i]] = 1`. -/
def int_to_onehot {n c : ℕ} (y : Fin n → Fin c) : Matrix (Fin n) (Fin c) ℚ :=
  Matrix.of fun i j => if j = y i then 1 else 0

namespace NeuralNetMLP

/-- `NeuralNetMLP.backward` (given in the notebook): returns
`(d_loss__dw_out, d_loss__db_out, d_loss__d_w_h, d_loss__d_b_h)`.
`numClasses` is `self.num_classes` and `weight_out` is
`self.weight_out`; `np.dot(A.T, B)` is `Aᵀ * B` and
`np.sum(A, axis=0)` is a column sum. -/
def backward {n din m c : ℕ} (weight_out : Matrix (Fin c) (Fin m) ℚ)
    (x : Matrix (Fin n) (Fin din) ℚ) (o_h : Matrix (Fin n) (Fin m) ℚ)
    (o_out : Matrix (Fin n) (Fin c) ℚ) (y : Fin n → Fin c) :
    Matrix (Fin c) (Fin m) ℚ × (Fin c → ℚ) ×
      Matrix (Fin m) (Fin din) ℚ × (Fin m → ℚ) :=
  let y_onehot := int_to_onehot y
  let d_loss__d_o_out : Matrix (Fin n) (Fin c) ℚ :=
    Matrix.of fun i j => 2 * (o_out i j - y_onehot i j) / (n : ℚ)
  let d_o_out__d_z_out : Matrix (Fin n) (Fin c) ℚ :=
    Matrix.of fun i j => o_out i j * (1 - o_out i j)
  let delta_out : Matrix (Fin n) (Fin c) ℚ :=
    Matrix.of fun i j => d_loss__d_o_out i j * d_o_out__d_z_out i j
  let d_z_out__dw_out := o_h
  let d_loss__dw_out : Matrix (Fin c) (Fin m) ℚ :=
    delta_out.transpose * d_z_out__dw_out
  let d_loss__db_out : Fin c → ℚ := fun j => ∑ i, delta_out i j
  let d_z_out__o_h := weight_out
  let d_loss__o_h : Matrix (Fin n) (Fin m) ℚ := delta_out * d_z_out__o_h
  let d_o_h__d_z_h : Matrix (Fin n) (Fin m) ℚ :=
    Matrix.of fun i j => o_h i j * (1 - o_h i j)
  let d_z_h__d_w_h := x
  let d_loss__d_w_h : Matrix (Fin m) (Fin din) ℚ :=
    (Matrix.of fun i j => d_loss__o_h i j * d_o_h__d_z_h i j).transpose * d_z_h__d_w_h
  let d_loss__d_b_h : Fin m → ℚ := fun j => ∑ i, d_loss__o_h i j * d_o_h__d_z_h i j
  (d_loss__dw_out, d_loss__db_out, d_loss__d_w_h, d_loss__d_b_h)

end NeuralNetMLP

/-! ## Minibatch utilities (scikit-learn session notebook)

`minibatch_generator` shuffles `np.arange(X.shape[0])` and yields the
slices `indices[start : start + minibatch_size]` for
`start in range(0, indices.shape[0] - minibatch_size + 1,
minibatch_size)`.  The shuffled index array is passed explicitly as
`perm`; a python `range(0, stop, step)` with positive `step` is
embedded as `pyRangeNats` (the `stop` is an integer, which matters
when `len(X) < minibatch_size` and the stop is non-positive). -/

/-- Length of `range(0, stop, step)` for integer `stop` and positive
step: `ceil(stop / step)` when `stop > 0`, else `0`. -/
def pyRangeLen (stop : ℤ) (step : ℕ) : ℕ :=
  if 0 < stop ∧ 0 < step then ((stop + step - 1) / step).toNat else 0

/-- `range(0, stop, step)` for integer `stop` and positive natural
`step` (all elements are non-negative, so they are returned as `ℕ`). -/
def pyRangeNats (stop : ℤ) (step : ℕ) : List ℕ :=
  (List.range (pyRangeLen stop step)).map (fun i => i * step)

/-- `minibatch_generator`: one epoch's batches.  `perm` is the shuffled
`np.arange(X.shape[0])`; each yielded element is the pair
`(X[batch_idx], y[batch_idx])` of the feature rows and labels selected
by one `minibatch_size`-long slice of `perm`. -/
def minibatch_generator (X : List (List ℚ)) (y : List ℕ)
    (minibatch_size : ℕ) (perm : List ℕ) :
    List (List (List ℚ) × List ℕ) :=
  (pyRangeNats ((perm.length : ℤ) - minibatch_size + 1) minibatch_size).map
    (fun start =>
      let batch_idx := (perm.drop start).take minibatch_size
      (batch_idx.map (fun i => X.getD i []), batch_idx.map (fun i => y.getD i 0)))

/-- `np.argmax` of a row: index of the first occurrence of the maximum
(undefined by numpy on an empty row; here `0`). -/
def argmaxQ (l : List ℚ) : ℕ :=
  (l.enum.foldl (fun best p => if best.2 < p.2 then p else best) (0, l.headD 0)).1

/-- One-hot encoding of a single integer label as a row of length `L`
(`int_to_onehot` applied row-wise, for the list-shaped data of
`compute_mse_and_acc`). -/
def onehotRow (t L : ℕ) : List ℚ :=
  (List.range L).map (fun j => if j = t then 1 else 0)

/-- The batch loss of `compute_mse_and_acc`:
`np.mean((onehot_targets - probas)**2)`, the mean over all
`len(targets) * num_labels` entries. -/
def mseLoss (targets : List ℕ) (probas : List (List ℚ)) (num_labels : ℕ) : ℚ :=
  ((targets.zip probas).map
      (fun p => ((onehotRow p.1 num_labels).zipWith (fun a q => (a - q) ^ 2) p.2).sum)).sum
    / ((targets.length * num_labels : ℕ) : ℚ)

/-- The loop body of `compute_mse_and_acc`: the accumulator mirrors the
python locals `(i, mse, correct_pred, num_examples)`, `p` is one
`enumerate` element `(i, (features, targets))`.  The loop variable `i`
is rebound to `some p.1` on every iteration. -/
def computeStep (fwd : List (List ℚ) → List (List ℚ)) (num_labels : ℕ)
    (acc : Option ℕ × ℚ × ℕ × ℕ) (p : ℕ × (List (List ℚ) × List ℕ)) :
    Option ℕ × ℚ × ℕ × ℕ :=
  let probas := fwd p.2.1
  let predicted_labels := probas.map argmaxQ
  let loss := mseLoss p.2.2 probas num_labels
  (some p.1, acc.2.1 + loss,
    acc.2.2.1 + (predicted_labels.zip p.2.2).countP (fun q => q.1 == q.2),
    acc.2.2.2 + p.2.2.length)

/-- `compute_mse_and_acc`.  The network is abstracted as the function
`fwd` giving the output activations of `nnet.forward` on a batch.  The
final `mse = mse/(i+1)` is only defined when the loop variable `i` is
bound — a run with zero batches raises `NameError`, modelled as
`none`. -/
def compute_mse_and_acc (fwd : List (List ℚ) → List (List ℚ))
    (X : List (List ℚ)) (y : List ℕ) (num_labels minibatch_size : ℕ)
    (perm : List ℕ) : Option (ℚ × ℚ) :=
  let r := ((minibatch_generator X y minibatch_size perm).enum).foldl
    (computeStep fwd num_labels)
    ((none : Option ℕ), (0 : ℚ), (0 : ℕ), (0 : ℕ))
  match r.1 with
  | none => none
  | some i => some (r.2.1 / (i + 1), (r.2.2.1 : ℚ) / (r.2.2.2 : ℚ))

/-! ## Theorems: the bias perceptron -/

theorem Perceptron.predict1_cases {d : ℕ} (w : Fin d → ℚ) (b : ℚ)
    (x : Fin d → ℚ) : predict1 w b x = 1 ∨ predict1 w b x = -1 := by
  unfold predict1
  split <;> simp

theorem Perceptron.mul_predict1_neg_iff {d : ℕ} (w : Fin d → ℚ) (b : ℚ)
    (x : Fin d → ℚ) (t : ℚ) (ht : t = 1 ∨ t = -1) :
    t * predict1 w b x < 0 ↔ predict1 w b x ≠ t := by
  rcases Perceptron.predict1_cases w b x with hp | hp <;>
    rcases ht with ht | ht <;> rw [hp, ht] <;> norm_num

theorem Perceptron.step_eq_stepDis {d : ℕ} (eta : ℚ)
    (s : (Fin d → ℚ) × ℚ × ℕ) (ex : (Fin d → ℚ) × ℚ)
    (ht : ex.2 = 1 ∨ ex.2 = -1) : step eta s ex = stepDis eta s ex := by
  unfold step stepDis
  rw [if_congr (Perceptron.mul_predict1_neg_iff s.1 s.2.1 ex.1 ex.2 ht) rfl rfl]

theorem Perceptron.foldl_step_eq_stepDis {d : ℕ} (eta : ℚ)
    (exs : List ((Fin d → ℚ) × ℚ)) (hy : ∀ ex ∈ exs, ex.2 = 1 ∨ ex.2 = -1)
    (s : (Fin d → ℚ) × ℚ × ℕ) :
    exs.foldl (step eta) s = exs.foldl (stepDis eta) s := by
  induction exs generalizing s with
  | nil => rfl
  | cons a l ih =>
    simp only [List.foldl_cons]
    rw [Perceptron.step_eq_stepDis eta s a (hy a (List.mem_cons_self a l))]
    exact ih (fun ex hex => hy ex (List.mem_cons_of_mem a hex)) _

theorem Perceptron.fitAux_eq_fitAuxDis {d : ℕ} (eta : ℚ)
    (exs : List ((Fin d → ℚ) × ℚ)) (hy : ∀ ex ∈ exs, ex.2 = 1 ∨ ex.2 = -1)
    (fuel : ℕ) (w : Fin d → ℚ) (b : ℚ) (errs : List ℕ) (ps : ℕ) :
    fitAux eta exs fuel w b errs ps = fitAuxDis eta exs fuel w b errs ps := by
  induction fuel generalizing w b errs ps with
  | zero => rfl
  | succ fuel ih =>
    unfold fitAux fitAuxDis runPass
    rw [Perceptron.foldl_step_eq_stepDis eta exs hy]
    dsimp only
    split
    · rfl
    · exact ih _ _ _ _

theorem Perceptron.fitAux_passes_le {d : ℕ} (eta : ℚ)
    (exs : List ((Fin d → ℚ) × ℚ)) (fuel : ℕ) (w : Fin d → ℚ) (b : ℚ)
    (errs : List ℕ) (ps : ℕ) :
    (fitAux eta exs fuel w b errs ps).passes ≤ ps + fuel := by
  induction fuel generalizing w b errs ps with
  | zero => simp [fitAux]
  | succ fuel ih =>
    unfold fitAux
    dsimp only
    split
    · simp
    · calc (fitAux eta exs fuel _ _ _ (ps + 1)).passes ≤ (ps + 1) + fuel := ih _ _ _ _
        _ = ps + (fuel + 1) := by omega

theorem Perceptron.fitAux_early_stop {d : ℕ} (eta : ℚ)
    (exs : List ((Fin d → ℚ) × ℚ)) (fuel : ℕ) (w : Fin d → ℚ) (b : ℚ)
    (errs : List ℕ) (ps : ℕ) (h : (runPass eta exs w b).2.2 = 0) :
    fitAux eta exs (fuel + 1) w b errs ps =
      ⟨(runPass eta exs w b).1, (runPass eta exs w b).2.1, errs, ps + 1⟩ := by
  unfold fitAux
  simp [h]

theorem Perceptron.fitAux_errs_eq_trace {d : ℕ} (eta : ℚ)
    (exs : List ((Fin d → ℚ) × ℚ)) (fuel : ℕ) (w : Fin d → ℚ) (b : ℚ)
    (errs : List ℕ) (ps : ℕ) :
    (fitAux eta exs fuel w b errs ps).errs =
        errs ++ (passTrace eta exs fuel w b).filter (fun e => e != 0) ∧
      (fitAux eta exs fuel w b errs ps).passes =
        ps + (passTrace eta exs fuel w b).length := by
  induction fuel generalizing w b errs ps with
  | zero => simp [fitAux, passTrace]
  | succ fuel ih =>
    unfold fitAux passTrace
    by_cases h : (runPass eta exs w b).2.2 = 0
    · simp [h]
    · simp only [h, if_neg h, ite_false]
      refine ⟨?_, ?_⟩
      · rw [(ih _ _ _ _).1]
        simp [h]
      · rw [(ih _ _ _ _).2]
        simp
        omega

/-- C1: for labels in `{+1, -1}`, `Perceptron.fit` starts from
`w = 0, b = 0`, performs at most `n_iter` passes over the examples in
order, and within a pass exactly the examples whose current prediction
disagrees with their label trigger the update and error count (`fit`
coincides with the disagreement-guard variant `fitDis`); a pass with
zero errors ends training immediately with no further recursion. -/
theorem perceptron_fit_correct {d : ℕ} (X : List (Fin d → ℚ)) (y : List ℚ)
    (eta : ℚ) (n_iter : ℕ) (hy : ∀ t ∈ y, t = 1 ∨ t = -1) :
    Perceptron.fit X y eta n_iter =
        Perceptron.fitAux eta (X.zip y) n_iter 0 0 [] 0 ∧
      (Perceptron.fit X y eta n_iter).passes ≤ n_iter ∧
      Perceptron.fit X y eta n_iter = Perceptron.fitDis X y eta n_iter ∧
      (∀ (fuel : ℕ) (w : Fin d → ℚ) (b : ℚ) (errs : List ℕ) (ps : ℕ),
        (Perceptron.runPass eta (X.zip y) w b).2.2 = 0 →
          Perceptron.fitAux eta (X.zip y) (fuel + 1) w b errs ps =
            ⟨(Perceptron.runPass eta (X.zip y) w b).1,
              (Perceptron.runPass eta (X.zip y) w b).2.1, errs, ps + 1⟩) := by
  refine ⟨rfl, ?_, ?_, ?_⟩
  · have h := Perceptron.fitAux_passes_le eta (X.zip y) n_iter 0 0 [] 0
    simpa [Perceptron.fit] using h
  · have hzip : ∀ ex ∈ X.zip y, ex.2 = 1 ∨ ex.2 = -1 := by
      intro ex hex
      exact hy ex.2 (List.of_mem_zip hex).2
    exact Perceptron.fitAux_eq_fitAuxDis eta (X.zip y) hzip n_iter 0 0 [] 0
  · intro fuel w b errs ps h
    exact Perceptron.fitAux_early_stop eta (X.zip y) fuel w b errs ps h

/-- Witness for C1 at `X = [(1)], y = [1], eta = 1, n_iter = 2`. -/
theorem perceptron_fit_correct_witness :
    (∀ t ∈ [(1 : ℚ)], t = 1 ∨ t = -1) ∧
      (Perceptron.fit (d := 1) [fun _ => 1] [(1 : ℚ)] 1 2).passes ≤ 2 :=
  ⟨by norm_num,
    (perceptron_fit_correct (d := 1) [fun _ => 1] [(1 : ℚ)] 1 2
      (by norm_num)).2.1⟩

/-- C5 (counterexample): on `X = [(1)], y = [1], eta = 1, n_iter = 5`
the very first pass triggers no update, so `fit` performs one pass and
returns early — but `errors_` is left empty: it does *not* contain an
entry for the final zero-error pass, contradicting the claim that
`errors_` has one entry for every performed pass including that one. -/
theorem perceptron_errs_counterexample :
    (Perceptron.fit (d := 1) [fun _ => 1] [(1 : ℚ)] 1 5).passes = 1 ∧
      (Perceptron.fit (d := 1) [fun _ => 1] [(1 : ℚ)] 1 5).errs = [] ∧
      (Perceptron.fit (d := 1) [fun _ => 1] [(1 : ℚ)] 1 5).errs.length ≠
        (Perceptron.fit (d := 1) [fun _ => 1] [(1 : ℚ)] 1 5).passes := by
  norm_num [Perceptron.fit, Perceptron.fitAux, Perceptron.runPass, Perceptron.step,
    Perceptron.predict1, Perceptron.net_input, dotQ, Fin.sum_univ_one]

/-- C5 (amended): after `fit`, `errors_` is the per-pass error-count
sequence of the performed passes in order — `passTrace` records, for
each performed pass, how many examples triggered an update, and
`errors_` is exactly this trace with the final zero-error entry (the
early-convergence pass) omitted; equivalently, its nonzero entries.
The error counter increments exactly at the update-triggering examples
(third conjunct). -/
theorem perceptron_errs_spec {d : ℕ} (X : List (Fin d → ℚ)) (y : List ℚ)
    (eta : ℚ) (n_iter : ℕ) :
    (Perceptron.fit X y eta n_iter).errs =
        (Perceptron.passTrace eta (X.zip y) n_iter 0 0).filter (fun e => e != 0) ∧
      (Perceptron.fit X y eta n_iter).passes =
        (Perceptron.passTrace eta (X.zip y) n_iter 0 0).length ∧
      (∀ (s : (Fin d → ℚ) × ℚ × ℕ) (ex : (Fin d → ℚ) × ℚ),
        (Perceptron.step eta s ex).2.2 =
          s.2.2 + if ex.2 * Perceptron.predict1 s.1 s.2.1 ex.1 < 0 then 1 else 0) := by
  refine ⟨?_, ?_, ?_⟩
  · have h := (Perceptron.fitAux_errs_eq_trace eta (X.zip y) n_iter 0 0 [] 0).1
    simpa [Perceptron.fit] using h
  · have h := (Perceptron.fitAux_errs_eq_trace eta (X.zip y) n_iter 0 0 [] 0).2
    simpa [Perceptron.fit] using h
  · intro s ex
    unfold Perceptron.step
    split <;> simp

/-- C9: `Perceptron.predict` maps each row `x` of `X` to the unit step
of `net_input = ⟨x, w⟩ + b` — `+1` when the net input is `≥ 0` (so a
net input of exactly `0` yields `+1`), `-1` otherwise — hence every
returned label is in `{+1, -1}`. -/
theorem perceptron_predict_correct {d : ℕ} (w : Fin d → ℚ) (b : ℚ)
    (X : List (Fin d → ℚ)) :
    Perceptron.predict w b X =
        X.map (fun x => if 0 ≤ dotQ x w + b then 1 else -1) ∧
      (∀ x ∈ X, Perceptron.net_input w b x = 0 → Perceptron.predict1 w b x = 1) ∧
      (∀ l ∈ Perceptron.predict w b X, l = 1 ∨ l = -1) := by
  refine ⟨rfl, ?_, ?_⟩
  · intro x _ hx
    unfold Perceptron.predict1
    rw [hx]
    norm_num
  · intro l hl
    rcases List.mem_map.1 hl with ⟨x, _, rfl⟩
    exact Perceptron.predict1_cases w b x

/-- Witness for C9 at `w = (0), b = 0, X = [(5)]`: the net input is `0`
and the prediction is `+1`. -/
theorem perceptron_predict_correct_witness :
    Perceptron.predict1 (d := 1) (fun _ => 0) 0 (fun _ => 5) = 1 :=
  (perceptron_predict_correct (d := 1) (fun _ => 0) 0 [fun _ => 5]).2.1
    (fun _ => 5) (by norm_num)
    (by norm_num [Perceptron.net_input, dotQ, Fin.sum_univ_one])

/-! ## Theorems: the kernel perceptron refines the primal perceptron -/

theorem dotQ_zero_right {d : ℕ} (z : Fin d → ℚ) : dotQ z 0 = 0 := by
  simp [dotQ]

theorem dotQ_add_right {d : ℕ} (z u v : Fin d → ℚ) :
    dotQ z (u + v) = dotQ z u + dotQ z v := by
  unfold dotQ
  simp [Pi.add_apply, mul_add, Finset.sum_add_distrib]

theorem dotQ_smul_right {d : ℕ} (c : ℚ) (z u : Fin d → ℚ) :
    dotQ z (c • u) = c * dotQ z u := by
  unfold dotQ
  simp [Pi.smul_apply, smul_eq_mul, Finset.mul_sum, mul_left_comm]

theorem dotQ_comm {d : ℕ} (u v : Fin d → ℚ) : dotQ u v = dotQ v u := by
  unfold dotQ
  exact Finset.sum_congr rfl (fun i _ => mul_comm _ _)

theorem kernel_sum_standard {d : ℕ} (z : Fin d → ℚ) :
    ∀ (alpha y : List ℚ) (X : List (Fin d → ℚ)),
      ((alpha.zip (y.zip X)).map (fun p => p.1 * p.2.1 * K_standard p.2.2 z)).sum =
        dotQ z (KernelPerceptron.impliedW X y alpha) := by
  intro alpha
  induction alpha with
  | nil => intro y X; simp [KernelPerceptron.impliedW, dotQ_zero_right]
  | cons a as ih =>
    intro y X
    cases y with
    | nil => simp [KernelPerceptron.impliedW, dotQ_zero_right]
    | cons t ts =>
      cases X with
      | nil => simp [KernelPerceptron.impliedW, dotQ_zero_right]
      | cons x xs =>
        simp only [KernelPerceptron.impliedW, List.zip_cons_cons, List.map_cons,
          List.sum_cons]
        rw [dotQ_add_right, dotQ_smul_right]
        have hrest := ih ts xs
        simp only [KernelPerceptron.impliedW] at hrest
        rw [hrest, K_standard, dotQ_comm]

theorem kernel_net_input_standard {d : ℕ} (X : List (Fin d → ℚ))
    (y alpha : List ℚ) (b : ℚ) (z : Fin d → ℚ) :
    KernelPerceptron.net_input K_standard X y alpha b z =
      dotQ z (KernelPerceptron.impliedW X y alpha) + b := by
  unfold KernelPerceptron.net_input
  rw [kernel_sum_standard]

theorem impliedW_set {d : ℕ} (eta : ℚ) :
    ∀ (k : ℕ) (alpha y : List ℚ) (X : List (Fin d → ℚ)),
      k < alpha.length → k < y.length → k < X.length →
      KernelPerceptron.impliedW X y (alpha.set k (alpha.getD k 0 + eta)) =
        KernelPerceptron.impliedW X y alpha + (eta * y.getD k 0) • X.getD k 0 := by
  intro k
  induction k with
  | zero =>
    intro alpha y X ha hy hX
    cases alpha with
    | nil => simp at ha
    | cons a as =>
      cases y with
      | nil => simp at hy
      | cons t ts =>
        cases X with
        | nil => simp at hX
        | cons x xs =>
          simp only [List.set_cons_zero, List.getD_cons_zero,
            KernelPerceptron.impliedW, List.zip_cons_cons, List.map_cons,
            List.sum_cons]
          rw [add_mul, add_smul]
          abel
  | succ k ih =>
    intro alpha y X ha hy hX
    cases alpha with
    | nil => simp at ha
    | cons a as =>
      cases y with
      | nil => simp at hy
      | cons t ts =>
        cases X with
        | nil => simp at hX
        | cons x xs =>
          simp only [List.set_cons_succ, List.getD_cons_succ,
            KernelPerceptron.impliedW, List.zip_cons_cons, List.map_cons,
            List.sum_cons]
          have hrec := ih as ts xs (by simpa using ha) (by simpa using hy)
            (by simpa using hX)
          simp only [KernelPerceptron.impliedW] at hrec
          rw [hrec]
          abel

theorem kernel_predict1_standard {d : ℕ} (X : List (Fin d → ℚ)) (y : List ℚ)
    (alpha : List ℚ) (w : Fin d → ℚ) (b : ℚ) (z : Fin d → ℚ)
    (hw : KernelPerceptron.impliedW X y alpha = w) :
    KernelPerceptron.predict1 K_standard X y alpha b z =
      Perceptron.predict1 w b z := by
  unfold KernelPerceptron.predict1 Perceptron.predict1 Perceptron.net_input
  rw [kernel_net_input_standard, hw]

theorem kernel_step_sim {d : ℕ} (X : List (Fin d → ℚ)) (y : List ℚ)
    (eta b : ℚ) (e : ℕ) (alpha : List ℚ) (w : Fin d → ℚ) (k : ℕ)
    (hw : KernelPerceptron.impliedW X y alpha = w)
    (ha : alpha.length = X.length) (hY : y.length = X.length)
    (hk : k < X.length) :
    KernelPerceptron.impliedW X y
          (KernelPerceptron.step K_standard X y eta (alpha, b, e) k).1 =
        (Perceptron.step eta (w, b, e) (X.getD k 0, y.getD k 0)).1 ∧
      (KernelPerceptron.step K_standard X y eta (alpha, b, e) k).2.1 =
        (Perceptron.step eta (w, b, e) (X.getD k 0, y.getD k 0)).2.1 ∧
      (KernelPerceptron.step K_standard X y eta (alpha, b, e) k).2.2 =
        (Perceptron.step eta (w, b, e) (X.getD k 0, y.getD k 0)).2.2 ∧
      (KernelPerceptron.step K_standard X y eta (alpha, b, e) k).1.length =
        X.length := by
  unfold KernelPerceptron.step Perceptron.step
  dsimp only
  rw [kernel_predict1_standard X y alpha w b (X.getD k 0) hw]
  by_cases hcond : y.getD k 0 * Perceptron.predict1 w b (X.getD k 0) < 0
  · simp only [hcond, ite_true]
    refine ⟨?_, trivial, trivial, by simp [ha]⟩
    rw [impliedW_set eta k alpha y X (ha ▸ hk) (hY ▸ hk) hk, hw]
  · simp only [hcond, ite_false]
    exact ⟨hw, trivial, trivial, ha⟩

theorem kernel_pass_sim {d : ℕ} (X : List (Fin d → ℚ)) (y : List ℚ) (eta : ℚ)
    (hY : y.length = X.length) :
    ∀ (m j : ℕ), j + m = X.length →
      ∀ (alpha : List ℚ) (w : Fin d → ℚ) (b : ℚ) (e : ℕ),
        KernelPerceptron.impliedW X y alpha = w → alpha.length = X.length →
        KernelPerceptron.impliedW X y
              ((List.range' j m).foldl (KernelPerceptron.step K_standard X y eta)
                (alpha, b, e)).1 =
            (((X.zip y).drop j).foldl (Perceptron.step eta) (w, b, e)).1 ∧
          ((List.range' j m).foldl (KernelPerceptron.step K_standard X y eta)
                (alpha, b, e)).2.1 =
            (((X.zip y).drop j).foldl (Perceptron.step eta) (w, b, e)).2.1 ∧
          ((List.range' j m).foldl (KernelPerceptron.step K_standard X y eta)
                (alpha, b, e)).2.2 =
            (((X.zip y).drop j).foldl (Perceptron.step eta) (w, b, e)).2.2 ∧
          ((List.range' j m).foldl (KernelPerceptron.step K_standard X y eta)
              (alpha, b, e)).1.length = X.length := by
  intro m
  induction m with
  | zero =>
    intro j hj alpha w b e hw ha
    have hdrop : (X.zip y).drop j = [] := by
      apply List.drop_eq_nil_of_le
      simp only [List.length_zip, hY, min_self]
      omega
    simp only [List.range', hdrop, List.foldl_nil]
    exact ⟨hw, trivial, trivial, ha⟩
  | succ m ih =>
    intro j hj alpha w b e hw ha
    have hk : j < X.length := by omega
    have hjz : j < (X.zip y).length := by
      simp only [List.length_zip, hY, min_self]
      omega
    have hdrop : (X.zip y).drop j =
        (X.getD j 0, y.getD j 0) :: (X.zip y).drop (j + 1) := by
      rw [List.drop_eq_getElem_cons hjz, List.getElem_zip]
      rw [List.getD_eq_getElem X 0 hk, List.getD_eq_getElem y 0 (hY ▸ hk)]
    rw [List.range'_succ, hdrop]
    simp only [List.foldl_cons]
    obtain ⟨h1, h2, h3, h4⟩ := kernel_step_sim X y eta b e alpha w j hw ha hY hk
    have hks : KernelPerceptron.step K_standard X y eta (alpha, b, e) j =
        ((KernelPerceptron.step K_standard X y eta (alpha, b, e) j).1,
          (Perceptron.step eta (w, b, e) (X.getD j 0, y.getD j 0)).2.1,
          (Perceptron.step eta (w, b, e) (X.getD j 0, y.getD j 0)).2.2) := by
      rw [← h2, ← h3]
    have hps : Perceptron.step eta (w, b, e) (X.getD j 0, y.getD j 0) =
        ((Perceptron.step eta (w, b, e) (X.getD j 0, y.getD j 0)).1,
          (Perceptron.step eta (w, b, e) (X.getD j 0, y.getD j 0)).2.1,
          (Perceptron.step eta (w, b, e) (X.getD j 0, y.getD j 0)).2.2) := rfl
    rw [hks, hps]
    exact ih (j + 1) (by omega) _ _ _ _ h1 h4

theorem kernel_runPass_sim {d : ℕ} (X : List (Fin d → ℚ)) (y : List ℚ)
    (eta : ℚ) (hY : y.length = X.length) (alpha : List ℚ) (w : Fin d → ℚ)
    (b : ℚ) (hw : KernelPerceptron.impliedW X y alpha = w)
    (ha : alpha.length = X.length) :
    KernelPerceptron.impliedW X y
          (KernelPerceptron.runPass K_standard X y eta alpha b).1 =
        (Perceptron.runPass eta (X.zip y) w b).1 ∧
      (KernelPerceptron.runPass K_standard X y eta alpha b).2.1 =
        (Perceptron.runPass eta (X.zip y) w b).2.1 ∧
      (KernelPerceptron.runPass K_standard X y eta alpha b).2.2 =
        (Perceptron.runPass eta (X.zip y) w b).2.2 ∧
      (KernelPerceptron.runPass K_standard X y eta alpha b).1.length =
        X.length := by
  unfold KernelPerceptron.runPass Perceptron.runPass
  have h := kernel_pass_sim X y eta hY X.length 0 (by omega) alpha w b 0 hw ha
  simpa [List.range_eq_range'] using h

theorem kernel_fitAux_sim {d : ℕ} (X : List (Fin d → ℚ)) (y : List ℚ)
    (eta : ℚ) (hY : y.length = X.length) :
    ∀ (fuel : ℕ) (alpha : List ℚ) (w : Fin d → ℚ) (b : ℚ) (errs : List ℕ)
      (ps : ℕ), KernelPerceptron.impliedW X y alpha = w →
      alpha.length = X.length →
      KernelPerceptron.impliedW X y
            (KernelPerceptron.fitAux K_standard X y eta fuel alpha b errs ps).alpha =
          (Perceptron.fitAux eta (X.zip y) fuel w b errs ps).w ∧
        (KernelPerceptron.fitAux K_standard X y eta fuel alpha b errs ps).b =
          (Perceptron.fitAux eta (X.zip y) fuel w b errs ps).b ∧
        (KernelPerceptron.fitAux K_standard X y eta fuel alpha b errs ps).errs =
          (Perceptron.fitAux eta (X.zip y) fuel w b errs ps).errs ∧
        (KernelPerceptron.fitAux K_standard X y eta fuel alpha b errs ps).passes =
          (Perceptron.fitAux eta (X.zip y) fuel w b errs ps).passes ∧
        (KernelPerceptron.fitAux K_standard X y eta fuel alpha b errs
            ps).alpha.length = X.length := by
  intro fuel
  induction fuel with
  | zero =>
    intro alpha w b errs ps hw ha
    exact ⟨hw, rfl, rfl, rfl, ha⟩
  | succ fuel ih =>
    intro alpha w b errs ps hw ha
    obtain ⟨h1, h2, h3, h4⟩ := kernel_runPass_sim X y eta hY alpha w b hw ha
    unfold KernelPerceptron.fitAux Perceptron.fitAux
    dsimp only
    rw [h3]
    by_cases hz : (Perceptron.runPass eta (X.zip y) w b).2.2 = 0
    · simp only [hz, ite_true]
      exact ⟨h1, h2, trivial, trivial, h4⟩
    · simp only [hz, ite_false]
      rw [h2]
      exact ih _ _ _ _ _ h1 h4

theorem impliedW_replicate_zero {d : ℕ} :
    ∀ (X : List (Fin d → ℚ)) (y : List ℚ),
      KernelPerceptron.impliedW X y (List.replicate X.length 0) = 0 := by
  intro X
  induction X with
  | nil => intro y; simp [KernelPerceptron.impliedW]
  | cons x xs ih =>
    intro y
    cases y with
    | nil => simp [KernelPerceptron.impliedW]
    | cons t ts =>
      simp only [List.length_cons, List.replicate_succ, List.zip_cons_cons,
        KernelPerceptron.impliedW, List.map_cons, List.sum_cons]
      have hrest := ih ts
      simp only [KernelPerceptron.impliedW] at hrest
      rw [hrest]
      simp

/-- C2: with the standard dot-product kernel, the kernel perceptron
reproduces the primal perceptron exactly: from any pair of states
related by `impliedW alpha = w` (in particular from the all-zero
initial states) the two `fitAux` loops stay related pass by pass
(fourth conjunct) and the two inner-loop steps stay related example by
example (fifth conjunct), so the final implied weight vector, bias,
recorded error counts, pass count, and the predictions on every input
coincide with the primal run on the same data, order, `eta` and
`n_iter`. -/
theorem kernel_standard_eq_primal {d : ℕ} (X : List (Fin d → ℚ)) (y : List ℚ)
    (eta : ℚ) (n_iter : ℕ) (hY : y.length = X.length) :
    KernelPerceptron.impliedW X y
          (KernelPerceptron.fit K_standard X y eta n_iter).alpha =
        (Perceptron.fit X y eta n_iter).w ∧
      (KernelPerceptron.fit K_standard X y eta n_iter).b =
        (Perceptron.fit X y eta n_iter).b ∧
      ((KernelPerceptron.fit K_standard X y eta n_iter).errs =
          (Perceptron.fit X y eta n_iter).errs ∧
        (KernelPerceptron.fit K_standard X y eta n_iter).passes =
          (Perceptron.fit X y eta n_iter).passes) ∧
      (∀ (fuel : ℕ) (alpha : List ℚ) (w : Fin d → ℚ) (b : ℚ) (errs : List ℕ)
        (ps : ℕ), KernelPerceptron.impliedW X y alpha = w →
          alpha.length = X.length →
          KernelPerceptron.impliedW X y
                (KernelPerceptron.fitAux K_standard X y eta fuel alpha b errs
                  ps).alpha =
              (Perceptron.fitAux eta (X.zip y) fuel w b errs ps).w ∧
            (KernelPerceptron.fitAux K_standard X y eta fuel alpha b errs ps).b =
              (Perceptron.fitAux eta (X.zip y) fuel w b errs ps).b ∧
            (KernelPerceptron.fitAux K_standard X y eta fuel alpha b errs
                ps).errs = (Perceptron.fitAux eta (X.zip y) fuel w b errs ps).errs ∧
            (KernelPerceptron.fitAux K_standard X y eta fuel alpha b errs
                ps).passes =
              (Perceptron.fitAux eta (X.zip y) fuel w b errs ps).passes) ∧
      (∀ (k : ℕ) (alpha : List ℚ) (w : Fin d → ℚ) (b : ℚ) (e : ℕ),
        k < X.length → KernelPerceptron.impliedW X y alpha = w →
          alpha.length = X.length →
          KernelPerceptron.impliedW X y
                (KernelPerceptron.step K_standard X y eta (alpha, b, e) k).1 =
              (Perceptron.step eta (w, b, e) (X.getD k 0, y.getD k 0)).1 ∧
            (KernelPerceptron.step K_standard X y eta (alpha, b, e) k).2.1 =
              (Perceptron.step eta (w, b, e) (X.getD k 0, y.getD k 0)).2.1 ∧
            (KernelPerceptron.step K_standard X y eta (alpha, b, e) k).2.2 =
              (Perceptron.step eta (w, b, e) (X.getD k 0, y.getD k 0)).2.2) ∧
      (∀ z : Fin d → ℚ,
        KernelPerceptron.predict1 K_standard X y
            (KernelPerceptron.fit K_standard X y eta n_iter).alpha
            (KernelPerceptron.fit K_standard X y eta n_iter).b z =
          Perceptron.predict1 (Perceptron.fit X y eta n_iter).w
            (Perceptron.fit X y eta n_iter).b z) := by
  have hinit := kernel_fitAux_sim X y eta hY n_iter
    (List.replicate X.length 0) 0 0 [] 0 (impliedW_replicate_zero X y)
    (by simp)
  refine ⟨hinit.1, hinit.2.1, ⟨hinit.2.2.1, hinit.2.2.2.1⟩, ?_, ?_, ?_⟩
  · intro fuel alpha w b errs ps hw ha
    obtain ⟨g1, g2, g3, g4, _⟩ := kernel_fitAux_sim X y eta hY fuel alpha w b
      errs ps hw ha
    exact ⟨g1, g2, g3, g4⟩
  · intro k alpha w b e hk hw ha
    obtain ⟨g1, g2, g3, _⟩ := kernel_step_sim X y eta b e alpha w k hw ha hY hk
    exact ⟨g1, g2, g3⟩
  · intro z
    unfold KernelPerceptron.fit Perceptron.fit
    rw [hinit.2.1]
    exact kernel_predict1_standard X y _ _ _ z hinit.1

/-- Witness for C2 at `X = [(1)], y = [-1], eta = 1, n_iter = 3`: the
kernel run's bias and recorded errors equal the primal run's. -/
theorem kernel_standard_eq_primal_witness :
    (KernelPerceptron.fit (d := 1) K_standard [fun _ => 1] [(-1 : ℚ)] 1 3).b =
        (Perceptron.fit (d := 1) [fun _ => 1] [(-1 : ℚ)] 1 3).b ∧
      (KernelPerceptron.fit (d := 1) K_standard [fun _ => 1] [(-1 : ℚ)] 1 3).errs =
        (Perceptron.fit (d := 1) [fun _ => 1] [(-1 : ℚ)] 1 3).errs :=
  ⟨(kernel_standard_eq_primal (d := 1) [fun _ => 1] [(-1 : ℚ)] 1 3 (by simp)).2.1,
    (kernel_standard_eq_primal (d := 1) [fun _ => 1] [(-1 : ℚ)] 1 3
      (by simp)).2.2.1.1⟩

/-! ## Theorems: AdaBoost -/

theorem adaboost_stateAt_succ (logA expA : ℚ → ℚ)
    (wl : List (List ℚ) → List ℚ → List ℚ → (List ℚ → ℚ))
    (X : List (List ℚ)) (y : List ℚ) (t : ℕ) :
    AdaBoost.stateAt logA expA wl X y (t + 1) =
      ⟨AdaBoost.normalize
          (AdaBoost.reweight expA
            (1 / 2 * logA (1 / AdaBoost.epsAt logA expA wl X y t - 1)) X y
            (AdaBoost.stateAt logA expA wl X y t).mu
            (wl X y (AdaBoost.stateAt logA expA wl X y t).mu)),
        (AdaBoost.stateAt logA expA wl X y t).learners ++
          [wl X y (AdaBoost.stateAt logA expA wl X y t).mu],
        (AdaBoost.stateAt logA expA wl X y t).ws ++
          [1 / 2 * logA (1 / AdaBoost.epsAt logA expA wl X y t - 1)]⟩ := rfl

theorem adaboost_stateAt_len (logA expA : ℚ → ℚ)
    (wl : List (List ℚ) → List ℚ → List ℚ → (List ℚ → ℚ))
    (X : List (List ℚ)) (y : List ℚ) : ∀ t : ℕ,
    (AdaBoost.stateAt logA expA wl X y t).learners.length = t ∧
      (AdaBoost.stateAt logA expA wl X y t).ws.length = t := by
  intro t
  induction t with
  | zero => constructor <;> rfl
  | succ t ih =>
    rw [adaboost_stateAt_succ]
    simp [ih.1, ih.2]

theorem adaboost_stored_getD (logA expA : ℚ → ℚ)
    (wl : List (List ℚ) → List ℚ → List ℚ → (List ℚ → ℚ))
    (X : List (List ℚ)) (y : List ℚ) : ∀ (T t : ℕ), t < T →
    (AdaBoost.stateAt logA expA wl X y T).learners.getD t (fun _ => 0) =
        wl X y (AdaBoost.stateAt logA expA wl X y t).mu ∧
      (AdaBoost.stateAt logA expA wl X y T).ws.getD t 0 =
        1 / 2 * logA (1 / AdaBoost.epsAt logA expA wl X y t - 1) := by
  intro T
  induction T with
  | zero => intro t ht; omega
  | succ T ih =>
    intro t ht
    have hlen := adaboost_stateAt_len logA expA wl X y T
    by_cases hlt : t < T
    · rw [adaboost_stateAt_succ]
      constructor
      · rw [List.getD_append _ _ _ _ (by omega)]
        exact (ih t hlt).1
      · rw [List.getD_append _ _ _ _ (by omega)]
        exact (ih t hlt).2
    · have ht' : t = T := by omega
      subst ht'
      rw [adaboost_stateAt_succ]
      constructor
      · have h0 : ((AdaBoost.stateAt logA expA wl X y t).learners ++
            [wl X y (AdaBoost.stateAt logA expA wl X y t).mu]).getD
              (AdaBoost.stateAt logA expA wl X y t).learners.length
              (fun _ => 0) = wl X y (AdaBoost.stateAt logA expA wl X y t).mu := by
          simp [List.getD_eq_getElem]
        rw [hlen.1] at h0
        exact h0
      · have h0 : ((AdaBoost.stateAt logA expA wl X y t).ws ++
            [1 / 2 * logA (1 / AdaBoost.epsAt logA expA wl X y t - 1)]).getD
              (AdaBoost.stateAt logA expA wl X y t).ws.length 0 =
            1 / 2 * logA (1 / AdaBoost.epsAt logA expA wl X y t - 1) := by
          simp [List.getD_eq_getElem]
        rw [hlen.2] at h0
        exact h0

/-- C3: with every round's weighted error strictly between 0 and 1, and
labels in `{+1, -1}`, `AdaBoost.fit` performs exactly `T` rounds with no
early stopping (exactly `T` learners and `T` weights are stored
whatever the data), and the learner and weight stored at round `t < T`
are the learner requested under the round-`t` weights `mu` and
`w_t = 0.5 * ln(1/ε_t - 1)` for the round-`t` weighted error `ε_t`,
while `mu` evolves by the multiplicative reweighting
`mu_i *= exp(-w_t * y_i * h_t(x_i))` followed by renormalization. -/
theorem adaboost_fit_rounds (logA expA : ℚ → ℚ)
    (wl : List (List ℚ) → List ℚ → List ℚ → (List ℚ → ℚ))
    (X : List (List ℚ)) (y : List ℚ) (T : ℕ)
    (hy : ∀ t ∈ y, t = 1 ∨ t = -1)
    (heps : ∀ t < T, 0 < AdaBoost.epsAt logA expA wl X y t ∧
      AdaBoost.epsAt logA expA wl X y t < 1) :
    (AdaBoost.fit logA expA wl X y T).learners.length = T ∧
      (AdaBoost.fit logA expA wl X y T).ws.length = T ∧
      (∀ t, t < T →
        (AdaBoost.fit logA expA wl X y T).learners.getD t (fun _ => 0) =
            wl X y (AdaBoost.stateAt logA expA wl X y t).mu ∧
          (AdaBoost.fit logA expA wl X y T).ws.getD t 0 =
            1 / 2 * logA (1 / AdaBoost.epsAt logA expA wl X y t - 1) ∧
          (AdaBoost.stateAt logA expA wl X y (t + 1)).mu =
            AdaBoost.normalize
              (AdaBoost.reweight expA
                (1 / 2 * logA (1 / AdaBoost.epsAt logA expA wl X y t - 1)) X y
                (AdaBoost.stateAt logA expA wl X y t).mu
                (wl X y (AdaBoost.stateAt logA expA wl X y t).mu))) := by
  refine ⟨(adaboost_stateAt_len logA expA wl X y T).1,
    (adaboost_stateAt_len logA expA wl X y T).2, ?_⟩
  intro t ht
  refine ⟨(adaboost_stored_getD logA expA wl X y T t ht).1,
    (adaboost_stored_getD logA expA wl X y T t ht).2, ?_⟩
  rw [adaboost_stateAt_succ]

/-- Witness for C3 at `X = [[0], [1]], y = [1, -1], T = 1`, the constant
weak learner `h = 1`, and `logA = 0, expA = 1`: the round error is
`1/2 ∈ (0, 1)` and one learner and one weight are stored. -/
theorem adaboost_fit_rounds_witness :
    (∀ t ∈ [(1 : ℚ), -1], t = 1 ∨ t = -1) ∧
      (∀ t < 1, 0 < AdaBoost.epsAt (fun _ => 0) (fun _ => 1)
          (fun _ _ _ => fun _ => 1) [[0], [1]] [1, -1] t ∧
        AdaBoost.epsAt (fun _ => 0) (fun _ => 1)
          (fun _ _ _ => fun _ => 1) [[0], [1]] [1, -1] t < 1) ∧
      (AdaBoost.fit (fun _ => 0) (fun _ => 1) (fun _ _ _ => fun _ => 1)
          [[0], [1]] [1, -1] 1).learners.length = 1 ∧
      (AdaBoost.fit (fun _ => 0) (fun _ => 1) (fun _ _ _ => fun _ => 1)
          [[0], [1]] [1, -1] 1).ws.length = 1 := by
  have h1 : ∀ t ∈ [(1 : ℚ), -1], t = 1 ∨ t = -1 := by
    intro t ht
    rcases List.mem_cons.1 ht with rfl | ht'
    · exact Or.inl rfl
    · simp at ht'
      exact Or.inr ht'
  have h2 : ∀ t < 1, 0 < AdaBoost.epsAt (fun _ => 0) (fun _ => 1)
      (fun _ _ _ => fun _ => 1) [[0], [1]] [1, -1] t ∧
      AdaBoost.epsAt (fun _ => 0) (fun _ => 1)
        (fun _ _ _ => fun _ => 1) [[0], [1]] [1, -1] t < 1 := by
    intro t ht
    interval_cases t
    norm_num [AdaBoost.epsAt, AdaBoost.stateAt, AdaBoost.epsOf,
      List.replicate_succ, List.zip_cons_cons]
  have h3 := adaboost_fit_rounds (fun _ => 0) (fun _ => 1)
    (fun _ _ _ => fun _ => 1) [[0], [1]] [1, -1] 1 h1 h2
  exact ⟨h1, h2, h3.1, h3.2.1⟩

theorem list_sum_pos_of_mem_pos : ∀ (l : List ℚ), (∀ x ∈ l, 0 ≤ x) →
    ∀ a ∈ l, 0 < a → 0 < l.sum := by
  intro l
  induction l with
  | nil => intro _ a ha; simp at ha
  | cons x xs ih =>
    intro hnn a ha hpos
    have hxs : 0 ≤ xs.sum :=
      List.sum_nonneg (fun z hz => hnn z (List.mem_cons_of_mem _ hz))
    have hx : 0 ≤ x := hnn x (List.mem_cons_self x xs)
    rcases List.mem_cons.1 ha with rfl | ha'
    · simp only [List.sum_cons]
      linarith
    · have := ih (fun z hz => hnn z (List.mem_cons_of_mem _ hz)) a ha' hpos
      simp only [List.sum_cons]
      linarith

theorem list_exists_pos_of_sum_pos : ∀ l : List ℚ, 0 < l.sum →
    ∃ a ∈ l, 0 < a := by
  intro l
  induction l with
  | nil => intro h; norm_num at h
  | cons x xs ih =>
    intro h
    by_cases hx : 0 < x
    · exact ⟨x, List.mem_cons_self x xs, hx⟩
    · push_neg at hx
      simp only [List.sum_cons] at h
      obtain ⟨a, ha, hpa⟩ := ih (by linarith)
      exact ⟨a, List.mem_cons_of_mem _ ha, hpa⟩

theorem list_sum_map_div (l : List ℚ) (s : ℚ) :
    (l.map (fun m => m / s)).sum = l.sum / s := by
  induction l with
  | nil => simp
  | cons x xs ih => simp [List.sum_cons, ih, add_div]

theorem adaboost_normalize_sum (l : List ℚ) (h : l.sum ≠ 0) :
    (AdaBoost.normalize l).sum = 1 := by
  unfold AdaBoost.normalize
  rw [list_sum_map_div, div_self h]

theorem adaboost_normalize_nonneg (l : List ℚ) (hs : 0 < l.sum)
    (hnn : ∀ x ∈ l, 0 ≤ x) : ∀ x ∈ AdaBoost.normalize l, 0 ≤ x := by
  intro x hx
  unfold AdaBoost.normalize at hx
  rcases List.mem_map.1 hx with ⟨m, hm, rfl⟩
  exact div_nonneg (hnn m hm) (le_of_lt hs)

theorem adaboost_reweight_nonneg (expA : ℚ → ℚ) (wt : ℚ) (X : List (List ℚ))
    (y mu : List ℚ) (h : List ℚ → ℚ) (hexp : ∀ q, 0 < expA q)
    (hnn : ∀ m ∈ mu, 0 ≤ m) :
    ∀ x ∈ AdaBoost.reweight expA wt X y mu h, 0 ≤ x := by
  intro x hx
  unfold AdaBoost.reweight at hx
  rcases List.mem_map.1 hx with ⟨p, hp, rfl⟩
  exact mul_nonneg (hnn p.1 (List.of_mem_zip hp).1) (le_of_lt (hexp _))

theorem adaboost_reweight_sum_pos (expA : ℚ → ℚ) (wt : ℚ)
    (h : List ℚ → ℚ) (hexp : ∀ q, 0 < expA q) :
    ∀ (mu : List ℚ) (X : List (List ℚ)) (y : List ℚ),
      (∀ m ∈ mu, 0 ≤ m) → 0 < mu.sum → mu.length ≤ X.length →
      mu.length ≤ y.length →
      0 < (AdaBoost.reweight expA wt X y mu h).sum := by
  intro mu
  induction mu with
  | nil => intro X y _ hs _ _; norm_num at hs
  | cons m ms ih =>
    intro X y hnn hs hX hY
    cases X with
    | nil => simp at hX
    | cons x xs =>
      cases y with
      | nil => simp at hY
      | cons t ts =>
        have hstep : AdaBoost.reweight expA wt (x :: xs) (t :: ts) (m :: ms) h =
            m * expA (-(wt * t * h x)) ::
              AdaBoost.reweight expA wt xs ts ms h := by
          unfold AdaBoost.reweight
          simp [List.zip_cons_cons]
        rw [hstep, List.sum_cons]
        have hm : 0 ≤ m := hnn m (List.mem_cons_self m ms)
        have hrestnn : 0 ≤ (AdaBoost.reweight expA wt xs ts ms h).sum :=
          List.sum_nonneg (adaboost_reweight_nonneg expA wt xs ts ms h hexp
            (fun z hz => hnn z (List.mem_cons_of_mem _ hz)))
        by_cases hmp : 0 < m
        · have : 0 < m * expA (-(wt * t * h x)) := mul_pos hmp (hexp _)
          linarith
        · push_neg at hmp
          have hm0 : m = 0 := le_antisymm hmp hm
          subst hm0
          simp only [List.sum_cons] at hs
          have := ih xs ts (fun z hz => hnn z (List.mem_cons_of_mem _ hz))
            (by linarith) (by simpa using hX) (by simpa using hY)
          linarith

/-- C7: throughout `AdaBoost.fit` on `n > 0` examples (with matching
label length, and a positive `exp`), the sample weight vector `mu`
stays in the probability simplex: it starts uniform at `1/n`, and at
every round `t` it has length `n`, non-negative entries, and sum `1`. -/
theorem adaboost_mu_simplex (logA expA : ℚ → ℚ)
    (wl : List (List ℚ) → List ℚ → List ℚ → (List ℚ → ℚ))
    (X : List (List ℚ)) (y : List ℚ) (hn : 0 < X.length)
    (hY : y.length = X.length) (hexp : ∀ q, 0 < expA q) :
    (AdaBoost.stateAt logA expA wl X y 0).mu =
        List.replicate X.length (1 / (X.length : ℚ)) ∧
      ∀ t : ℕ, (AdaBoost.stateAt logA expA wl X y t).mu.sum = 1 ∧
        (∀ m ∈ (AdaBoost.stateAt logA expA wl X y t).mu, 0 ≤ m) ∧
        (AdaBoost.stateAt logA expA wl X y t).mu.length = X.length := by
  have hcast : (0 : ℚ) < (X.length : ℚ) := by exact_mod_cast hn
  refine ⟨rfl, ?_⟩
  intro t
  induction t with
  | zero =>
    refine ⟨?_, ?_, by simp [AdaBoost.stateAt]⟩
    · show (List.replicate X.length ((1 : ℚ) / (X.length : ℚ))).sum = 1
      rw [List.sum_replicate, nsmul_eq_mul]
      field_simp
    · intro m hm
      have := List.eq_of_mem_replicate hm
      rw [this]
      positivity
  | succ t ih =>
    obtain ⟨hsum, hnn, hlen⟩ := ih
    rw [adaboost_stateAt_succ]
    have hnn' := adaboost_reweight_nonneg expA
      (1 / 2 * logA (1 / AdaBoost.epsAt logA expA wl X y t - 1)) X y
      (AdaBoost.stateAt logA expA wl X y t).mu
      (wl X y (AdaBoost.stateAt logA expA wl X y t).mu) hexp hnn
    have hpos' := adaboost_reweight_sum_pos expA
      (1 / 2 * logA (1 / AdaBoost.epsAt logA expA wl X y t - 1))
      (wl X y (AdaBoost.stateAt logA expA wl X y t).mu) hexp
      (AdaBoost.stateAt logA expA wl X y t).mu X y hnn
      (by rw [hsum]; norm_num) (le_of_eq hlen) (le_of_eq (hlen.trans hY.symm))
    refine ⟨adaboost_normalize_sum _ (ne_of_gt hpos'),
      adaboost_normalize_nonneg _ hpos' hnn', ?_⟩
    show (AdaBoost.normalize (AdaBoost.reweight _ _ _ _ _ _)).length = X.length
    unfold AdaBoost.normalize AdaBoost.reweight
    simp [List.length_zip, hlen, hY]

/-- Witness for C7 at `X = [[1]], y = [1]`, the constant learner and
`expA = 1`: the sample weights after round 1 sum to 1. -/
theorem adaboost_mu_simplex_witness :
    (AdaBoost.stateAt (fun _ => 0) (fun _ => 1) (fun _ _ _ => fun _ => 1)
        [[1]] [1] 1).mu.sum = 1 :=
  ((adaboost_mu_simplex (fun _ => 0) (fun _ => 1) (fun _ _ _ => fun _ => 1)
      [[1]] [1] (by norm_num) (by norm_num) (fun q => by norm_num)).2 1).1

theorem adaboost_net_input_zip : ∀ (ws : List ℚ)
    (learners : List (List ℚ → ℚ)) (row : List ℚ),
    ws.length = learners.length →
    ((List.range ws.length).map
        (fun t => ws.getD t 0 * learners.getD t (fun _ => 0) row)).sum =
      ((ws.zip learners).map (fun p => p.1 * p.2 row)).sum := by
  intro ws
  induction ws with
  | nil => intro learners row _; simp
  | cons a as ih =>
    intro learners row hlen
    cases learners with
    | nil => simp at hlen
    | cons g gs =>
      simp only [List.length_cons, List.range_succ_eq_map, List.map_cons,
        List.map_map, List.sum_cons, List.zip_cons_cons, List.getD_cons_zero]
      rw [← ih gs row (by simpa using hlen)]
      simp [Function.comp_def]

/-- C8: when `fit` has stored `T` learners and `T` weights,
`AdaBoost.predict` maps each row to the sign of
`Σ_t w_t * h_t(row)` over all `T` stored `(learner, weight)` pairs
(with the code's convention that a net input of `0` gives `+1`), and
every returned label is in `{+1, -1}`. -/
theorem adaboost_predict_sign (ws : List ℚ) (learners : List (List ℚ → ℚ))
    (T : ℕ) (X : List (List ℚ)) (hws : ws.length = T)
    (hls : learners.length = T) :
    AdaBoost.predict ws learners T X =
        X.map (fun row =>
          if 0 ≤ ((ws.zip learners).map (fun p => p.1 * p.2 row)).sum then 1
          else -1) ∧
      ∀ l ∈ AdaBoost.predict ws learners T X, l = 1 ∨ l = -1 := by
  constructor
  · unfold AdaBoost.predict AdaBoost.net_input
    rw [List.map_map]
    apply List.map_congr_left
    intro row _
    simp only [Function.comp_def]
    rw [← hws, adaboost_net_input_zip ws learners row (hws.trans hls.symm)]
  · intro l hl
    unfold AdaBoost.predict at hl
    rcases List.mem_map.1 hl with ⟨v, _, rfl⟩
    split <;> simp

/-- Witness for C8 at `ws = [1]`, a single constant learner `h = 1`,
`T = 1`, `X = [[3]]`. -/
theorem adaboost_predict_sign_witness :
    AdaBoost.predict [1] [fun _ => 1] 1 [[3]] =
      [[((3 : ℚ))]].map (fun row =>
        if 0 ≤ (([(1 : ℚ)].zip [fun _ => (1 : ℚ)]).map
            (fun p => p.1 * p.2 row)).sum then 1 else -1) :=
  (adaboost_predict_sign [1] [fun _ => 1] 1 [[3]] rfl rfl).1

/-! ## Theorems: the two-layer network's backward pass -/

/-- C4: `NeuralNetMLP.backward` returns exactly the analytic gradients
of the mean-squared-error loss, written out entrywise: with
`delta_out i j = 2*(o_out i j - onehot(y) i j)/n * o_out i j*(1 - o_out i j)`
(which carries the `1/n` batch averaging), the output weight gradient
entry `(j, h)` is `Σ_i delta_out i j * o_h i h`, the output bias
gradient is the column sum `Σ_i delta_out i j`, and the hidden-layer
gradients propagate `delta_out` through `weight_out` and the hidden
sigmoid derivative `o_h * (1 - o_h)` (times `x` for the weight
gradient). -/
theorem nn_backward_gradients {n din m c : ℕ}
    (weight_out : Matrix (Fin c) (Fin m) ℚ) (x : Matrix (Fin n) (Fin din) ℚ)
    (o_h : Matrix (Fin n) (Fin m) ℚ) (o_out : Matrix (Fin n) (Fin c) ℚ)
    (y : Fin n → Fin c) :
    (NeuralNetMLP.backward weight_out x o_h o_out y).1 =
        Matrix.of (fun j hh =>
          ∑ i, 2 * (o_out i j - if j = y i then 1 else 0) / (n : ℚ) *
            (o_out i j * (1 - o_out i j)) * o_h i hh) ∧
      (NeuralNetMLP.backward weight_out x o_h o_out y).2.1 =
        (fun j => ∑ i, 2 * (o_out i j - if j = y i then 1 else 0) / (n : ℚ) *
          (o_out i j * (1 - o_out i j))) ∧
      (NeuralNetMLP.backward weight_out x o_h o_out y).2.2.1 =
        Matrix.of (fun jh f =>
          ∑ i, (∑ j, 2 * (o_out i j - if j = y i then 1 else 0) / (n : ℚ) *
              (o_out i j * (1 - o_out i j)) * weight_out j jh) *
            (o_h i jh * (1 - o_h i jh)) * x i f) ∧
      (NeuralNetMLP.backward weight_out x o_h o_out y).2.2.2 =
        (fun jh => ∑ i, (∑ j, 2 * (o_out i j - if j = y i then 1 else 0) / (n : ℚ) *
            (o_out i j * (1 - o_out i j)) * weight_out j jh) *
          (o_h i jh * (1 - o_h i jh))) := by
  refine ⟨?_, ?_, ?_, ?_⟩
  · unfold NeuralNetMLP.backward int_to_onehot
    dsimp only
    funext j hh
    rw [Matrix.mul_apply]
    simp only [Matrix.transpose_apply, Matrix.of_apply]
  · unfold NeuralNetMLP.backward int_to_onehot
    dsimp only
    funext j
    simp only [Matrix.of_apply]
  · unfold NeuralNetMLP.backward int_to_onehot
    dsimp only
    funext jh f
    rw [Matrix.mul_apply]
    simp only [Matrix.transpose_apply, Matrix.of_apply, Matrix.mul_apply]
  · unfold NeuralNetMLP.backward int_to_onehot
    dsimp only
    funext jh
    simp only [Matrix.of_apply, Matrix.mul_apply]

/-! ## Theorems: the minibatch generator -/

theorem pyRangeLen_eq_div (n M : ℕ) (hM : 1 ≤ M) (hMn : M ≤ n) :
    pyRangeLen ((n : ℤ) - M + 1) M = n / M := by
  unfold pyRangeLen
  have hM' : (M : ℤ) ≤ (n : ℤ) := by exact_mod_cast hMn
  rw [if_pos ⟨by omega, hM⟩]
  have harg : (n : ℤ) - M + 1 + M - 1 = (n : ℤ) := by ring
  rw [harg, ← Int.natCast_div, Int.toNat_ofNat]

theorem flatten_chunks {γ : Type} (M : ℕ) (L : List γ) :
    ∀ k : ℕ, k * M ≤ L.length →
      ((List.range k).map (fun j => (L.drop (j * M)).take M)).flatten =
        L.take (k * M) := by
  intro k
  induction k with
  | zero => intro _; simp
  | succ k ih =>
    intro hk
    rw [List.range_succ, List.map_append, List.flatten_append]
    rw [ih (by nlinarith)]
    simp only [List.map_cons, List.map_nil, List.flatten_cons, List.flatten_nil,
      List.append_nil]
    rw [show (k + 1) * M = k * M + M by ring, List.take_add]

/-- C6: for `1 ≤ M ≤ n`, matching input lengths, and `perm` a
permutation of `0..n-1` (the shuffled `np.arange(n)`), one run of
`minibatch_generator` yields exactly `⌊n/M⌋` batches; every batch holds
exactly `M` feature rows and `M` labels; concatenating the batches'
feature rows (resp. labels) gives exactly the features (resp. labels)
selected, in order and at matching positions, by the first `⌊n/M⌋·M`
entries of the single permutation `perm` — so the trailing remainder is
dropped and every yielded pair keeps its original feature–label
association — and all used indices are valid (`< n`). -/
theorem minibatch_generator_spec (X : List (List ℚ)) (y : List ℕ)
    (M n : ℕ) (perm : List ℕ) (hM : 1 ≤ M) (hMn : M ≤ n)
    (hX : X.length = n) (hy : y.length = n)
    (hperm : perm.Perm (List.range n)) :
    (minibatch_generator X y M perm).length = n / M ∧
      (∀ b ∈ minibatch_generator X y M perm,
        b.1.length = M ∧ b.2.length = M) ∧
      ((minibatch_generator X y M perm).map Prod.fst).flatten =
        (perm.take (n / M * M)).map (fun i => X.getD i []) ∧
      ((minibatch_generator X y M perm).map Prod.snd).flatten =
        (perm.take (n / M * M)).map (fun i => y.getD i 0) ∧
      (∀ i ∈ perm.take (n / M * M), i < n) := by
  have hpl : perm.length = n := hperm.length_eq.trans (List.length_range n)
  have hlen : pyRangeLen ((perm.length : ℤ) - M + 1) M = n / M := by
    rw [hpl]
    exact pyRangeLen_eq_div n M hM hMn
  have hstarts : pyRangeNats ((perm.length : ℤ) - M + 1) M =
      (List.range (n / M)).map (fun j => j * M) := by
    unfold pyRangeNats
    rw [hlen]
  have hgen : minibatch_generator X y M perm =
      (List.range (n / M)).map (fun j =>
        (((perm.drop (j * M)).take M).map (fun i => X.getD i []),
          ((perm.drop (j * M)).take M).map (fun i => y.getD i 0))) := by
    unfold minibatch_generator
    rw [hstarts, List.map_map]
    rfl
  have hdivle : n / M * M ≤ n := Nat.div_mul_le_self n M
  refine ⟨?_, ?_, ?_, ?_, ?_⟩
  · rw [hgen]
    simp
  · intro b hb
    rw [hgen] at hb
    rcases List.mem_map.1 hb with ⟨j, hj, rfl⟩
    have hjlt : j < n / M := List.mem_range.1 hj
    have hfit : j * M + M ≤ n := by
      have : (j + 1) * M ≤ n / M * M :=
        Nat.mul_le_mul_right M (Nat.succ_le_of_lt hjlt)
      nlinarith
    have htlen : ((perm.drop (j * M)).take M).length = M := by
      simp only [List.length_take, List.length_drop, hpl]
      omega
    constructor <;> simp only [List.length_map, htlen]
  · rw [hgen, List.map_map]
    have : (Prod.fst ∘ fun j =>
        (((perm.drop (j * M)).take M).map (fun i => X.getD i []),
          ((perm.drop (j * M)).take M).map (fun i => y.getD i 0))) =
        (fun j => ((perm.drop (j * M)).take M).map (fun i => X.getD i [])) := rfl
    rw [this]
    have hmapped : (List.range (n / M)).map
        (fun j => ((perm.drop (j * M)).take M).map (fun i => X.getD i [])) =
        ((List.range (n / M)).map (fun j => (perm.drop (j * M)).take M)).map
          (List.map (fun i => X.getD i [])) := by
      rw [List.map_map]
      rfl
    rw [hmapped, ← List.map_flatten, flatten_chunks M perm (n / M) (by omega)]
  · rw [hgen, List.map_map]
    have : (Prod.snd ∘ fun j =>
        (((perm.drop (j * M)).take M).map (fun i => X.getD i []),
          ((perm.drop (j * M)).take M).map (fun i => y.getD i 0))) =
        (fun j => ((perm.drop (j * M)).take M).map (fun i => y.getD i 0)) := rfl
    rw [this]
    have hmapped : (List.range (n / M)).map
        (fun j => ((perm.drop (j * M)).take M).map (fun i => y.getD i 0)) =
        ((List.range (n / M)).map (fun j => (perm.drop (j * M)).take M)).map
          (List.map (fun i => y.getD i 0)) := by
      rw [List.map_map]
      rfl
    rw [hmapped, ← List.map_flatten, flatten_chunks M perm (n / M) (by omega)]
  · intro i hi
    have : i ∈ perm := List.mem_of_mem_take hi
    exact List.mem_range.1 (hperm.mem_iff.1 this)

/-- Witness for C6 at `n = 3, M = 2` with the permutation `[2, 0, 1]`:
one batch of two examples is yielded and the third is dropped. -/
theorem minibatch_generator_spec_witness :
    (minibatch_generator [[1], [2], [3]] [1, 1, 0] 2 [2, 0, 1]).length = 3 / 2 :=
  (minibatch_generator_spec [[1], [2], [3]] [1, 1, 0] 2 3 [2, 0, 1]
    (by norm_num) (by norm_num) rfl rfl (by decide)).1

/-! ## Theorems: compute_mse_and_acc is defined iff a batch is yielded -/

theorem computeStep_foldl_isSome (fwd : List (List ℚ) → List (List ℚ))
    (L : ℕ) : ∀ (l : List (ℕ × (List (List ℚ) × List ℕ)))
    (acc : Option ℕ × ℚ × ℕ × ℕ), l ≠ [] →
    (l.foldl (computeStep fwd L) acc).1.isSome := by
  intro l
  induction l with
  | nil => intro acc h; exact absurd rfl h
  | cons a as ih =>
    intro acc _
    rw [List.foldl_cons]
    cases as with
    | nil => simp [computeStep]
    | cons b bs => exact ih _ (by simp)

theorem minibatch_generator_length (X : List (List ℚ)) (y : List ℕ)
    (M : ℕ) (perm : List ℕ) :
    (minibatch_generator X y M perm).length =
      pyRangeLen ((perm.length : ℤ) - M + 1) M := by
  unfold minibatch_generator pyRangeNats
  simp

/-- C10: `compute_mse_and_acc` (on `perm` modelling the shuffled
`np.arange(X.shape[0])`, with `1 ≤ minibatch_size`) returns a
`(mse, accuracy)` pair whenever `X` has at least `minibatch_size` rows;
when `X` has fewer rows the minibatch loop runs zero times, the loop
variable used by the final `mse/(i+1)` is never bound, and the call
fails (here: `none`) instead of returning a pair. -/
theorem compute_mse_and_acc_defined (fwd : List (List ℚ) → List (List ℚ))
    (X : List (List ℚ)) (y : List ℕ) (L M : ℕ) (perm : List ℕ)
    (hM : 1 ≤ M) (hpl : perm.length = X.length) :
    (M ≤ X.length → ∃ p, compute_mse_and_acc fwd X y L M perm = some p) ∧
      (X.length < M → compute_mse_and_acc fwd X y L M perm = none) := by
  constructor
  · intro hMn
    have hlen : (minibatch_generator X y M perm).length = X.length / M := by
      rw [minibatch_generator_length, hpl]
      exact pyRangeLen_eq_div X.length M hM hMn
    have hpos : 0 < (minibatch_generator X y M perm).enum.length := by
      rw [List.enum_length, hlen]
      exact (Nat.one_le_div_iff hM).2 hMn
    have hne : (minibatch_generator X y M perm).enum ≠ [] :=
      List.ne_nil_of_length_pos hpos
    obtain ⟨i, hi⟩ := Option.isSome_iff_exists.1
      (computeStep_foldl_isSome fwd L _
        ((none : Option ℕ), (0 : ℚ), (0 : ℕ), (0 : ℕ)) hne)
    unfold compute_mse_and_acc
    dsimp only
    rw [hi]
    exact ⟨_, rfl⟩
  · intro hn
    have hstop : ¬(0 < (perm.length : ℤ) - M + 1 ∧ 0 < M) := by
      rintro ⟨h1, _⟩
      rw [hpl] at h1
      have : (X.length : ℤ) < (M : ℤ) := by exact_mod_cast hn
      omega
    have hempty : minibatch_generator X y M perm = [] := by
      unfold minibatch_generator pyRangeNats pyRangeLen
      rw [if_neg hstop]
      simp
    unfold compute_mse_and_acc
    rw [hempty]
    rfl

/-- Witness for C10 with one single-feature example and
`minibatch_size = 1`: a pair is returned. -/
theorem compute_mse_and_acc_defined_witness :
    ∃ p, compute_mse_and_acc (fun _ => [[1]]) [[0]] [0] 1 1 [0] = some p :=
  (compute_mse_and_acc_defined (fun _ => [[1]]) [[0]] [0] 1 1 [0]
    (by norm_num) rfl).1 (by norm_num)

end Spec2Proof
